import Mathlib

/-
Shallow embedding of the goexif `tiff` package (src/tiff/tiff.go).

Bytes are modelled as natural numbers, streams as `List Nat`, and Go's
`bytes.Reader` as a pair of the underlying data and a read position.
Go functions returning `(*T, error)` are modelled as returning the pair
`Option T × Option String` so that the "nil result on error" discipline is
itself a provable property rather than being baked into the type.

The unbounded `for offset != 0` loops of `Decode` and `DecodeFile` are
modelled with explicit fuel; the entry points supply fuel `data.length + 1`.
A terminating run of the Go loop visits pairwise-distinct non-zero offsets,
each below `data.length` (a repeated offset would make the walk periodic and
hence non-terminating), so this fuel is exhausted exactly on the inputs where
the Go loop runs forever; `none` therefore models divergence.

`DecodeTag` and the `Tag` structure live in a file of the repository that is
not available here (only `tiff.go` is); they are modelled from the spec where
so marked.
-/

deriving instance DecidableEq for Except

namespace GoexifTiff

/-- Byte order marker interpretation: `"II"` is little-endian, `"MM"` is
big-endian (binary.LittleEndian / binary.BigEndian in the source). -/
inductive ByteOrder where
  | le : ByteOrder
  | be : ByteOrder
deriving DecidableEq

/-- Model of Go's `bytes.Reader`: the full underlying byte slice plus the
current read position. -/
structure BReader where
  data : List Nat
  pos : Nat
deriving DecidableEq

/-- Model of `io.ReadFull(r, buf)` with `len(buf) = n` on a `bytes.Reader`:
succeeds returning exactly `n` bytes and the advanced reader when `n` bytes
remain, and errors (`EOF`/`ErrUnexpectedEOF`) otherwise. -/
def BReader.readFull (r : BReader) (n : Nat) : Option (List Nat × BReader) :=
  if r.pos + n ≤ r.data.length then
    some ((r.data.drop r.pos).take n, ⟨r.data, r.pos + n⟩)
  else
    none

/-- Model of `bytes.Reader.ReadAt` followed by the full-length check done by
its caller: reading `n` bytes at absolute position `off` of the reader's data
succeeds only when they are all present. The reader's cursor is unaffected. -/
def BReader.readAt (r : BReader) (off n : Nat) : Option (List Nat) :=
  if off + n ≤ r.data.length then some ((r.data.drop off).take n) else none

/-- A 16-bit unsigned value assembled from (the first two of) the given bytes
under a byte order, as `binary.Read` of a `uint16` would produce. -/
def u16 (o : ByteOrder) (bs : List Nat) : Nat :=
  match o with
  | .le => bs.getD 0 0 + 256 * bs.getD 1 0
  | .be => bs.getD 1 0 + 256 * bs.getD 0 0

/-- A 32-bit unsigned value assembled from (the first four of) the given
bytes under a byte order, as `binary.Read` of a `uint32` would produce. -/
def u32 (o : ByteOrder) (bs : List Nat) : Nat :=
  match o with
  | .le => bs.getD 0 0 + 256 * bs.getD 1 0 + 65536 * bs.getD 2 0 + 16777216 * bs.getD 3 0
  | .be => bs.getD 3 0 + 256 * bs.getD 2 0 + 65536 * bs.getD 1 0 + 16777216 * bs.getD 0 0

/-- A 16-bit signed value (Go `int16`) assembled from two bytes under a byte
order: the unsigned value reduced into the range `[-32768, 32767]`. -/
def i16 (o : ByteOrder) (bs : List Nat) : Int :=
  let v := u16 o bs
  if v < 32768 then (v : Int) else (v : Int) - 65536

/-- Modelled from the spec: the `Tag` structure is declared in the
repository's tag-decoding file, which is not among the available sources.
Per spec section 3 / 4.2 a tag carries its 16-bit id, its value-type code,
its value count, the absolute offset of its out-of-line payload (zero for
inline values), and the raw payload bytes from which the typed values are
materialized. -/
structure Tag where
  id : Nat
  typ : Nat
  count : Nat
  valOffset : Nat
  val : List Nat
deriving DecidableEq

/-- Modelled from the spec: the per-type value size in bytes for the twelve
TIFF value types listed in spec section 3 (byte, ASCII, short, long,
rational, signed byte, undefined, signed short, signed long, signed
rational, float, double); unrecognized codes contribute size zero so that
their tags degrade to opaque inline entries rather than aborting the decode
(spec section 4.2). -/
def typeSize (c : Nat) : Nat :=
  match c with
  | 1 => 1
  | 2 => 1
  | 3 => 2
  | 4 => 4
  | 5 => 8
  | 6 => 1
  | 7 => 1
  | 8 => 2
  | 9 => 4
  | 10 => 8
  | 11 => 4
  | 12 => 8
  | _ => 0

/-- Modelled from the spec: `DecodeTag` is declared in the repository's
tag-decoding file, which is not among the available sources. Per spec
section 4.2 it decodes one fixed-size 12-byte entry — 2-byte id, 2-byte
value-type code, 4-byte value count, and a 4-byte slot holding either the
literal value (when `count * typeSize ≤ 4`) or an absolute offset from the
start of the TIFF stream; an out-of-line value is fetched by a random read
of `count * typeSize` bytes at `(offset - window base)` relative to the
current read window, and an offset that falls before the window base cannot
be resolved and fails as a read error. A short read anywhere in the entry is
an error. -/
def decodeTag (r : BReader) (order : ByteOrder) (base : Nat) :
    Except String (Tag × BReader) :=
  match r.readFull 2 with
  | none => .error ("tiff: tag id read failed")
  | some (idB, r1) =>
    match r1.readFull 2 with
    | none => .error ("tiff: tag type read failed")
    | some (tyB, r2) =>
      match r2.readFull 4 with
      | none => .error ("tiff: tag component count read failed")
      | some (cntB, r3) =>
        if 4 < typeSize (u16 order tyB) * u32 order cntB then
          match r3.readFull 4 with
          | none => .error ("tiff: tag value offset read failed")
          | some (offB, r4) =>
            if u32 order offB < base then .error ("tiff: tag value read failed")
            else
              match r4.readAt (u32 order offB - base)
                  (typeSize (u16 order tyB) * u32 order cntB) with
              | none => .error ("tiff: tag value read failed")
              | some v =>
                .ok (⟨u16 order idB, u16 order tyB, u32 order cntB,
                  u32 order offB, v⟩, r4)
        else
          match r3.readFull 4 with
          | none => .error ("tiff: tag value read failed")
          | some (slotB, r4) =>
            .ok (⟨u16 order idB, u16 order tyB, u32 order cntB, 0,
              slotB.take (typeSize (u16 order tyB) * u32 order cntB)⟩, r4)

/-- `Dir` from the source: the ordered tags of one Image File Directory. -/
structure Dir where
  Tags : List Tag
deriving DecidableEq

/-- The tag-reading loop of `DecodeDir` (source lines 205-211): decode `n`
tags in order, appending each to the directory, propagating the first tag
failure. -/
def decodeTags (n : Nat) (r : BReader) (order : ByteOrder) (base : Nat) :
    Except String (List Tag × BReader) :=
  match n with
  | 0 => .ok ([], r)
  | m + 1 =>
    match decodeTag r order base with
    | .error e => .error e
    | .ok (t, r1) =>
      match decodeTags m r1 order base with
      | .error e => .error e
      | .ok (ts, r2) => .ok (t :: ts, r2)

/-- `DecodeDir` from the source: read a 2-byte tag count as a signed
`int16`, decode `int(nTags)` tags in order (zero iterations when the count
is negative), then read the trailing 4-byte unsigned offset to the next
IFD. -/
def DecodeDir (r : BReader) (order : ByteOrder) (position_offset : Nat) :
    Except String (Dir × Nat × BReader) :=
  match r.readFull 2 with
  | none => .error ("tiff: failed to read IFD tag count")
  | some (cntB, r1) =>
    match decodeTags (i16 order cntB).toNat r1 order position_offset with
    | .error e => .error e
    | .ok (ts, r2) =>
      match r2.readFull 4 with
      | none => .error ("tiff: falied to read offset to next IFD")
      | some (offB, r3) => .ok (⟨ts⟩, u32 order offB, r3)

/-- `Tiff` from the source: the ordered directories and the byte order. -/
structure Tiff where
  Dirs : List Dir
  Order : ByteOrder
deriving DecidableEq

/-- The distinct failure points of the shared 8-byte header parse: an
unreadable or unrecognized byte-order marker, a short read of the 2-byte
magic, a magic value different from 42, and a short read of the 4-byte
first-IFD offset. `Decode` and `DecodeFile` map these to their respective
error strings. -/
inductive HdrErr where
  | bo : HdrErr
  | magicShort : HdrErr
  | magicBad : HdrErr
  | offShort : HdrErr
deriving DecidableEq

/-- The magic and first-offset reads of the header parse, following an
accepted byte-order marker: a 2-byte signed magic that must equal 42 under
the established order, then the 4-byte unsigned offset to the first
IFD. -/
def parseRest (order : ByteOrder) (r1 : BReader) :
    Except HdrErr (ByteOrder × Nat × BReader) :=
  match r1.readFull 2 with
  | none => .error .magicShort
  | some (spB, r2) =>
    if i16 order spB = 42 then
      match r2.readFull 4 with
      | none => .error .offShort
      | some (offB, r3) => .ok (order, u32 order offB, r3)
    else
      .error .magicBad

/-- The 8-byte header parse shared verbatim by `Decode` (source lines
116-141) and `DecodeFile` (source lines 33-66): a 2-byte marker selecting
the byte order, then the magic and first-offset reads. -/
def parseHeader (r : BReader) : Except HdrErr (ByteOrder × Nat × BReader) :=
  match r.readFull 2 with
  | none => .error .bo
  | some (boB, r1) =>
    if boB = [73, 73] then
      parseRest ByteOrder.le r1
    else if boB = [77, 77] then
      parseRest ByteOrder.be r1
    else
      .error .bo

/-- The IFD-chain loop of `Decode` (source lines 144-169), with explicit
fuel: while the offset is non-zero, seek the buffer to it, fail if the seek
lands at or past end-of-data, decode one directory with window base 0, fail
if the decoded next-offset equals the previous offset, and continue. -/
def decodeLoop (fuel : Nat) (buf : BReader) (order : ByteOrder)
    (offset prev : Nat) (acc : List Dir) :
    Option (Option Tiff × Option String) :=
  match fuel with
  | 0 => none
  | fuel' + 1 =>
    if offset = 0 then some (some ⟨acc, order⟩, none)
    else if buf.data.length ≤ offset then
      some (none, some ("tiff: seek offset after EOF"))
    else
      match DecodeDir ⟨buf.data, offset⟩ order 0 with
      | .error e => some (none, some e)
      | .ok (d, next, buf1) =>
        if next = prev then some (none, some ("tiff: recursive IFD"))
        else decodeLoop fuel' buf1 order next next (acc ++ [d])

/-- `Decode` from the source: read the whole stream, parse the 8-byte
header, then walk the IFD chain from the first-IFD offset with window base
0. A `none` result models a non-terminating chain walk. -/
def Decode (data : List Nat) : Option (Option Tiff × Option String) :=
  match parseHeader ⟨data, 0⟩ with
  | .error .bo => some (none, some ("tiff: could not read tiff byte order"))
  | .error .magicShort => some (none, some ("tiff: could not find special tiff marker"))
  | .error .magicBad => some (none, some ("tiff: could not find special tiff marker"))
  | .error .offShort => some (none, some ("tiff: could not read offset to first IFD"))
  | .ok (order, offset0, r) => decodeLoop (data.length + 1) r order offset0 offset0 []

/-- The IFD loop of `DecodeFile` (source lines 81-98), with explicit fuel:
unlike the canonical loop it never seeks — each directory is decoded from
wherever the previous one left the cursor in the tail window — and every
tag is resolved against the fixed window base `offset0`. -/
def fileLoop (fuel : Nat) (buf : BReader) (order : ByteOrder) (base : Nat)
    (next_offset prev : Nat) (acc : List Dir) :
    Option (Option Tiff × Option String) :=
  match fuel with
  | 0 => none
  | fuel' + 1 =>
    if next_offset = 0 then some (some ⟨acc, order⟩, none)
    else
      match DecodeDir buf order base with
      | .error e => some (none, some e)
      | .ok (d, next, buf1) =>
        if next = prev then some (none, some ("tiff: recursive IFD"))
        else fileLoop fuel' buf1 order base next next (acc ++ [d])

/-- `DecodeFile` from the source: read the 8-byte header from the file,
seek to the first-IFD offset (always possible on an `os.File`), read the
remainder of the file as the in-memory window whose base is that offset,
and run the no-seek directory loop over it. -/
def DecodeFile (data : List Nat) : Option (Option Tiff × Option String) :=
  match parseHeader ⟨data, 0⟩ with
  | .error .bo => some (none, some ("tiff: could not read tiff byte order"))
  | .error .magicShort => some (none, some ("tiff: could not read special tiff marker"))
  | .error .magicBad => some (none, some ("tiff: could not find special tiff marker"))
  | .error .offShort => some (none, some ("tiff: could not read offset of 1st IFD"))
  | .ok (order, offset0, _) =>
      fileLoop (data.length + 1) ⟨data.drop offset0, 0⟩ order offset0 offset0 offset0 []

/-- Structural parse of one 12-byte directory entry without resolving its
value: yields the value-type code, the count, and the 4-byte slot decoded
as an unsigned offset. Used to express, independently of value resolution,
which entries a directory declares. -/
def scanEntry (r : BReader) (order : ByteOrder) :
    Option ((Nat × Nat × Nat) × BReader) :=
  match r.readFull 2 with
  | none => none
  | some (_, r1) =>
    match r1.readFull 2 with
    | none => none
    | some (tyB, r2) =>
      match r2.readFull 4 with
      | none => none
      | some (cntB, r3) =>
        match r3.readFull 4 with
        | none => none
        | some (slotB, r4) =>
          some ((u16 order tyB, u32 order cntB, u32 order slotB), r4)

/-- Structural parse of `n` consecutive 12-byte directory entries. -/
def scanEntries (n : Nat) (r : BReader) (order : ByteOrder) :
    Option (List (Nat × Nat × Nat) × BReader) :=
  match n with
  | 0 => some ([], r)
  | m + 1 =>
    match scanEntry r order with
    | none => none
    | some (e, r1) =>
      match scanEntries m r1 order with
      | none => none
      | some (es, r2) => some (e :: es, r2)

/-- Decides whether the stream's first fast-mode directory structurally
declares a tag whose value is out-of-line (`4 < typeSize * count`) at an
absolute offset strictly before the first-IFD offset, i.e. before the
fast-mode window base. -/
def earlyRefB (data : List Nat) : Bool :=
  match parseHeader ⟨data, 0⟩ with
  | .error _ => false
  | .ok (order, offset0, _) =>
    match (⟨data.drop offset0, 0⟩ : BReader).readFull 2 with
    | none => false
    | some (cntB, r1) =>
      match scanEntries (i16 order cntB).toNat r1 order with
      | none => false
      | some (es, _) =>
        es.any (fun e => decide (4 < typeSize e.1 * e.2.1) && decide (e.2.2 < offset0))

/-- A little-endian single-directory stream: header with first-IFD offset
8, one tag (id 2, rational type 5, count 1) whose 8-byte value lives
out-of-line at offset 26, next-offset 0. -/
def exStream1 : List Nat :=
  [73, 73, 42, 0, 8, 0, 0, 0,
   1, 0,
   2, 0, 5, 0, 1, 0, 0, 0, 26, 0, 0, 0,
   0, 0, 0, 0,
   1, 0, 0, 0, 2, 0, 0, 0]

/-- The decoded form of `exStream1`. -/
def exTiff1 : Tiff := ⟨[⟨[⟨2, 5, 1, 26, [1, 0, 0, 0, 2, 0, 0, 0]⟩]⟩], .le⟩

/-- A stream whose directory at offset 8 declares its own offset 8 as the
next-IFD offset: an immediate self-cycle. -/
def exStreamSelf : List Nat := [73, 73, 42, 0, 8, 0, 0, 0, 0, 0, 8, 0, 0, 0]

/-- A stream whose directories form a two-cycle: the directory at offset 8
points to offset 14 and the directory at offset 14 points back to 8. -/
def exStreamCycle : List Nat :=
  [73, 73, 42, 0, 8, 0, 0, 0, 0, 0, 14, 0, 0, 0, 0, 0, 8, 0, 0, 0]

/-- First-IFD offset 16; the single tag stores an out-of-line rational at
offset 8, strictly before the window base 16; next-offset 0, so the
canonical decode succeeds. -/
def exStreamEarly : List Nat :=
  [73, 73, 42, 0, 16, 0, 0, 0,
   0, 0, 0, 0, 0, 0, 0, 0,
   1, 0,
   1, 0, 5, 0, 1, 0, 0, 0, 8, 0, 0, 0,
   0, 0, 0, 0]

/-- Like `exStreamEarly` but with next-offset 16, so the canonical decode
fails on the cycle guard even though the early reference resolves. -/
def exStreamEarlyBad : List Nat :=
  [73, 73, 42, 0, 16, 0, 0, 0,
   0, 0, 0, 0, 0, 0, 0, 0,
   1, 0,
   1, 0, 5, 0, 1, 0, 0, 0, 8, 0, 0, 0,
   16, 0, 0, 0]

/-- A bare valid header whose first-IFD offset field is 0. -/
def exStreamEmpty : List Nat := [73, 73, 42, 0, 0, 0, 0, 0]

/-- A valid header whose first-IFD offset 200 lies past the 8-byte
stream. -/
def exStreamFar : List Nat := [73, 73, 42, 0, 200, 0, 0, 0]

/-- A valid header, directory at 8 declaring one tag, but the stream ends
before the tag entry. -/
def exStreamTagErr : List Nat := [73, 73, 42, 0, 8, 0, 0, 0, 1, 0]

/-- A raw directory blob: one inline short tag (id 0x0100, value 100),
next-offset 0. -/
def exDirBytes : List Nat :=
  [1, 0, 0, 1, 3, 0, 1, 0, 0, 0, 100, 0, 0, 0, 0, 0, 0, 0]

/-- A raw directory blob declaring one tag but truncated inside the
entry. -/
def exDirFail : List Nat := [1, 0, 1, 2, 3]

/-- A raw directory blob whose tag count field is 0x8000 (negative as a
signed 16-bit integer), followed directly by a next-offset of 5. -/
def exDirNeg : List Nat := [0, 128, 5, 0, 0, 0]

theorem readFull_mk_some {data : List Nat} {q n : Nat} {bs : List Nat} {r1 : BReader} :
    (⟨data, q⟩ : BReader).readFull n = some (bs, r1) ↔
      q + n ≤ data.length ∧ bs = (data.drop q).take n ∧ r1 = ⟨data, q + n⟩ := by
  unfold BReader.readFull
  simp only
  split
  · simp only [Option.some.injEq, Prod.mk.injEq]
    rename_i hc
    constructor
    · rintro ⟨rfl, rfl⟩
      exact ⟨hc, rfl, rfl⟩
    · rintro ⟨-, rfl, rfl⟩
      exact ⟨rfl, rfl⟩
  · rename_i hc
    simp only [reduceCtorEq, false_iff, not_and]
    intro h
    exact absurd h hc

theorem readFull_mk_none {data : List Nat} {q n : Nat} :
    (⟨data, q⟩ : BReader).readFull n = none ↔ data.length < q + n := by
  unfold BReader.readFull
  simp only
  split <;> rename_i hc <;> simp <;> omega

theorem readAt_mk_some {data : List Nat} {q off n : Nat} {bs : List Nat} :
    (⟨data, q⟩ : BReader).readAt off n = some bs ↔
      off + n ≤ data.length ∧ bs = (data.drop off).take n := by
  unfold BReader.readAt
  simp only
  split
  · rename_i hc
    simp only [Option.some.injEq]
    constructor
    · rintro rfl
      exact ⟨hc, rfl⟩
    · rintro ⟨-, rfl⟩
      rfl
  · rename_i hc
    simp only [reduceCtorEq, false_iff, not_and]
    intro h
    exact absurd h hc

/-- Full characterization of a successful `decodeTag` call on a reader
positioned at `q`: the entry occupies exactly the 12 bytes starting at `q`,
its fields are decoded from the four 2/2/4/4-byte sub-slices, and its
payload comes either from a resolved out-of-line read at `valOffset - base`
or from the slot bytes themselves. -/
theorem decodeTag_ok_iff {data : List Nat} {q : Nat} {order : ByteOrder}
    {base : Nat} {t : Tag} {r1 : BReader} :
    decodeTag ⟨data, q⟩ order base = .ok (t, r1) ↔
      q + 12 ≤ data.length ∧
      r1 = ⟨data, q + 12⟩ ∧
      t.id = u16 order ((data.drop q).take 2) ∧
      t.typ = u16 order ((data.drop (q + 2)).take 2) ∧
      t.count = u32 order ((data.drop (q + 4)).take 4) ∧
      ((4 < typeSize t.typ * t.count ∧
          t.valOffset = u32 order ((data.drop (q + 8)).take 4) ∧
          base ≤ t.valOffset ∧
          (t.valOffset - base) + typeSize t.typ * t.count ≤ data.length ∧
          t.val = (data.drop (t.valOffset - base)).take (typeSize t.typ * t.count)) ∨
        (typeSize t.typ * t.count ≤ 4 ∧
          t.valOffset = 0 ∧
          t.val = ((data.drop (q + 8)).take 4).take (typeSize t.typ * t.count))) := by
  unfold decodeTag
  constructor
  · intro h
    split at h
    · exact absurd h (by simp)
    rename_i idB rA h2
    obtain ⟨hl2, hbs2, hrA⟩ := readFull_mk_some.mp h2
    subst hbs2
    subst hrA
    split at h
    · exact absurd h (by simp)
    rename_i tyB rB h3
    obtain ⟨hl3, hbs3, hrB⟩ := readFull_mk_some.mp h3
    subst hbs3
    subst hrB
    split at h
    · exact absurd h (by simp)
    rename_i cntB rC h4
    obtain ⟨hl4, hbs4, hrC⟩ := readFull_mk_some.mp h4
    subst hbs4
    subst hrC
    rw [show q + 2 + 2 = q + 4 by omega] at h
    split at h
    · -- out-of-line branch
      rename_i hgt
      split at h
      · exact absurd h (by simp)
      rename_i offB rD h5
      obtain ⟨hl5, hbs5, hrD⟩ := readFull_mk_some.mp h5
      subst hbs5
      subst hrD
      rw [show q + 4 + 4 = q + 8 by omega] at h
      split at h
      · exact absurd h (by simp)
      rename_i hnlt
      split at h
      · exact absurd h (by simp)
      rename_i v h6
      obtain ⟨hl6, hv⟩ := readAt_mk_some.mp h6
      injection h with h
      injection h with ht hr
      subst ht
      subst hr
      refine ⟨by omega, rfl, rfl, rfl, rfl, ?_⟩
      left
      exact ⟨hgt, rfl, Nat.le_of_not_lt hnlt, hl6, hv⟩
    · -- inline branch
      rename_i hle
      split at h
      · exact absurd h (by simp)
      rename_i slotB rD h5
      obtain ⟨hl5, hbs5, hrD⟩ := readFull_mk_some.mp h5
      subst hbs5
      subst hrD
      rw [show q + 4 + 4 = q + 8 by omega] at h
      injection h with h
      injection h with ht hr
      subst ht
      subst hr
      refine ⟨by omega, rfl, rfl, rfl, rfl, ?_⟩
      right
      exact ⟨Nat.le_of_not_lt hle, rfl, rfl⟩
  · rintro ⟨hlen, hr1, hid, hty, hcnt, hrest⟩
    subst hr1
    obtain ⟨tid, tty, tcnt, tvo, tv⟩ := t
    dsimp only at hid hty hcnt hrest
    subst hid
    subst hty
    subst hcnt
    split
    · rename_i h2
      exact absurd (readFull_mk_none.mp h2) (by omega)
    rename_i idB rA h2
    obtain ⟨-, hbs2, hrA⟩ := readFull_mk_some.mp h2
    subst hbs2
    subst hrA
    split
    · rename_i h3
      exact absurd (readFull_mk_none.mp h3) (by omega)
    rename_i tyB rB h3
    obtain ⟨-, hbs3, hrB⟩ := readFull_mk_some.mp h3
    subst hbs3
    subst hrB
    split
    · rename_i h4
      exact absurd (readFull_mk_none.mp h4) (by omega)
    rename_i cntB rC h4
    obtain ⟨-, hbs4, hrC⟩ := readFull_mk_some.mp h4
    subst hbs4
    subst hrC
    rw [show q + 2 + 2 = q + 4 by omega]
    rcases hrest with ⟨hgt, hvo, hba, hvr, hv⟩ | ⟨hle, hvo, hv⟩
    · subst hvo
      subst hv
      rw [if_pos hgt]
      split
      · rename_i h5
        exact absurd (readFull_mk_none.mp h5) (by omega)
      rename_i offB rD h5
      obtain ⟨-, hbs5, hrD⟩ := readFull_mk_some.mp h5
      subst hbs5
      subst hrD
      rw [show q + 4 + 4 = q + 8 by omega]
      rw [if_neg (by omega)]
      rw [show (⟨data, q + 8 + 4⟩ : BReader).readAt
            (u32 order ((data.drop (q + 8)).take 4) - base)
            (typeSize (u16 order ((data.drop (q + 2)).take 2)) *
              u32 order ((data.drop (q + 4)).take 4)) =
          some ((data.drop (u32 order ((data.drop (q + 8)).take 4) - base)).take
            (typeSize (u16 order ((data.drop (q + 2)).take 2)) *
              u32 order ((data.drop (q + 4)).take 4))) from
          readAt_mk_some.mpr ⟨hvr, rfl⟩]
    · subst hvo
      subst hv
      rw [if_neg (by omega)]
      split
      · rename_i h5
        exact absurd (readFull_mk_none.mp h5) (by omega)
      rename_i slotB rD h5
      obtain ⟨-, hbs5, hrD⟩ := readFull_mk_some.mp h5
      subst hbs5
      subst hrD
      rw [show q + 4 + 4 = q + 8 by omega]

theorem decodeTag_consume {r : BReader} {order : ByteOrder} {base : Nat}
    {t : Tag} {r1 : BReader} (h : decodeTag r order base = .ok (t, r1)) :
    r1 = ⟨r.data, r.pos + 12⟩ ∧ r.pos + 12 ≤ r.data.length := by
  have h2 : decodeTag ⟨r.data, r.pos⟩ order base = .ok (t, r1) := h
  obtain ⟨hl, hr1, -⟩ := decodeTag_ok_iff.mp h2
  exact ⟨hr1, hl⟩

/-- The default tag used only to state positional indexing facts. -/
def dfltTag : Tag := ⟨0, 0, 0, 0, []⟩

/-- Elimination form for a successful tag-loop run starting at position `q`:
it decodes exactly `n` tags, the `i`-th from the 12 bytes at `q + 12 * i`,
and leaves the cursor at `q + 12 * n`. -/
theorem decodeTags_elim {order : ByteOrder} {base : Nat} :
    ∀ {n q : Nat} {data ts r2},
      decodeTags n ⟨data, q⟩ order base = .ok (ts, r2) →
      ts.length = n ∧ r2 = ⟨data, q + 12 * n⟩ ∧
        ∀ i, i < n →
          decodeTag ⟨data, q + 12 * i⟩ order base =
            .ok (ts.getD i dfltTag, ⟨data, q + 12 * (i + 1)⟩) := by
  intro n
  induction n with
  | zero =>
    intro q data ts r2 h
    unfold decodeTags at h
    injection h with h
    injection h with hts hr2
    subst hts
    subst hr2
    exact ⟨rfl, rfl, by omega⟩
  | succ m ih =>
    intro q data ts r2 h
    unfold decodeTags at h
    split at h
    · exact absurd h (by simp)
    rename_i t rA hA
    obtain ⟨hrA, hlA⟩ := decodeTag_consume hA
    simp only at hrA
    subst hrA
    split at h
    · exact absurd h (by simp)
    rename_i ts1 rB hB
    injection h with h
    injection h with hts hr2
    subst hts
    subst hr2
    obtain ⟨hlen1, hrB, hidx⟩ := ih hB
    refine ⟨by simp [hlen1], by rw [hrB]; congr 1; omega, ?_⟩
    intro i hi
    match i with
    | 0 =>
      simpa using hA
    | j + 1 =>
      have := hidx j (by omega)
      rw [show q + 12 * (j + 1) = q + 12 + 12 * j by omega]
      rw [show q + 12 * (j + 1 + 1) = q + 12 + 12 * (j + 1) by omega]
      simpa using this

/-- Introduction form for a failing tag-loop run: if the first `i` entries
decode and the entry at index `i < n` fails, the loop fails with that
entry's error. -/
theorem decodeTags_err_intro {order : ByteOrder} {base : Nat} {e : String} :
    ∀ {n q i : Nat} {data : List Nat},
      i < n →
      (∀ j, j < i → ∃ tj, decodeTag ⟨data, q + 12 * j⟩ order base =
        .ok (tj, ⟨data, q + 12 * (j + 1)⟩)) →
      decodeTag ⟨data, q + 12 * i⟩ order base = .error e →
      decodeTags n ⟨data, q⟩ order base = .error e := by
  intro n
  induction n with
  | zero =>
    intro q i data hi
    omega
  | succ m ih =>
    intro q i data hi hok herr
    match i with
    | 0 =>
      simp only [Nat.mul_zero, Nat.add_zero] at herr
      simp only [decodeTags, herr]
    | j + 1 =>
      obtain ⟨t0, ht0⟩ := hok 0 (by omega)
      simp only [Nat.mul_zero, Nat.add_zero, Nat.zero_add, Nat.mul_one] at ht0
      have htail : decodeTags m ⟨data, q + 12⟩ order base = .error e := by
        have h1 : ∀ j2, j2 < j → ∃ tj,
            decodeTag ⟨data, (q + 12) + 12 * j2⟩ order base =
              .ok (tj, ⟨data, (q + 12) + 12 * (j2 + 1)⟩) := by
          intro j2 hj2
          obtain ⟨tj, htj⟩ := hok (j2 + 1) (by omega)
          refine ⟨tj, ?_⟩
          rw [show (q + 12) + 12 * j2 = q + 12 * (j2 + 1) by omega]
          rw [show (q + 12) + 12 * (j2 + 1) = q + 12 * (j2 + 1 + 1) by omega]
          exact htj
        have h2 : decodeTag ⟨data, (q + 12) + 12 * j⟩ order base = .error e := by
          rw [show (q + 12) + 12 * j = q + 12 * (j + 1) by omega]
          exact herr
        exact ih (q := q + 12) (i := j) (by omega) h1 h2
      simp only [decodeTags, ht0, htail]

/-- Elimination form for a successful `DecodeDir` at position `q`: the
directory holds exactly `(int16 count).toNat` tags, the `i`-th decoded at
`q + 2 + 12 * i`, the next-IFD offset is the 4-byte value following the
last tag, and the cursor ends just after it. -/
theorem DecodeDir_ok_elim {order : ByteOrder} {base : Nat} {data : List Nat}
    {q : Nat} {d : Dir} {off : Nat} {r3 : BReader}
    (h : DecodeDir ⟨data, q⟩ order base = .ok (d, off, r3)) :
    q + 2 ≤ data.length ∧
    d.Tags.length = (i16 order ((data.drop q).take 2)).toNat ∧
    (∀ i, i < d.Tags.length →
      decodeTag ⟨data, q + 2 + 12 * i⟩ order base =
        .ok (d.Tags.getD i dfltTag, ⟨data, q + 2 + 12 * (i + 1)⟩)) ∧
    off = u32 order ((data.drop (q + 2 + 12 * d.Tags.length)).take 4) ∧
    r3 = ⟨data, q + 6 + 12 * d.Tags.length⟩ ∧
    q + 6 + 12 * d.Tags.length ≤ data.length := by
  unfold DecodeDir at h
  split at h
  · exact absurd h (by simp)
  rename_i cntB rA hA
  obtain ⟨hlA, hbsA, hrA⟩ := readFull_mk_some.mp hA
  subst hbsA
  subst hrA
  split at h
  · exact absurd h (by simp)
  rename_i ts rB hB
  obtain ⟨hlen, hrB, hidx⟩ := decodeTags_elim hB
  subst hrB
  split at h
  · exact absurd h (by simp)
  rename_i offB rC hC
  obtain ⟨hlC, hbsC, hrC⟩ := readFull_mk_some.mp hC
  subst hbsC
  subst hrC
  injection h with h
  injection h with hd h
  injection h with hoff hr3
  subst hd
  subst hoff
  subst hr3
  refine ⟨by omega, hlen, ?_, ?_, ?_, ?_⟩
  · intro i hi
    dsimp only at hi
    exact hidx i (by omega)
  · dsimp only
    rw [hlen]
  · dsimp only
    rw [hlen]
    congr 1
    omega
  · dsimp only
    rw [hlen]
    omega

/-- Introduction form for a failing `DecodeDir`: if the count reads as `n`,
the first `i` entries decode, and the entry at index `i < n` fails, the
directory decode fails with that entry's error and yields no directory. -/
theorem DecodeDir_err_intro {order : ByteOrder} {base : Nat} {data : List Nat}
    {q i : Nat} {e : String}
    (hq : q + 2 ≤ data.length)
    (hi : i < (i16 order ((data.drop q).take 2)).toNat)
    (hok : ∀ j, j < i → ∃ tj, decodeTag ⟨data, q + 2 + 12 * j⟩ order base =
      .ok (tj, ⟨data, q + 2 + 12 * (j + 1)⟩))
    (herr : decodeTag ⟨data, q + 2 + 12 * i⟩ order base = .error e) :
    DecodeDir ⟨data, q⟩ order base = .error e := by
  have hrf : (⟨data, q⟩ : BReader).readFull 2 =
      some ((data.drop q).take 2, ⟨data, q + 2⟩) :=
    readFull_mk_some.mpr ⟨hq, rfl, rfl⟩
  have hts : decodeTags (i16 order ((data.drop q).take 2)).toNat ⟨data, q + 2⟩
      order base = .error e :=
    decodeTags_err_intro hi hok herr
  simp only [DecodeDir, hrf, hts]

/-- Elimination form for a successful header parse from the stream start:
the stream holds at least the 8 header bytes, the reader ends at position
8, the first-IFD offset is the 4-byte value at position 4, the byte order
matches the marker, and the magic decoded at position 2 is 42. -/
theorem parseHeader_ok_elim {data : List Nat} {order : ByteOrder}
    {off0 : Nat} {r : BReader}
    (h : parseHeader ⟨data, 0⟩ = .ok (order, off0, r)) :
    8 ≤ data.length ∧ r = ⟨data, 8⟩ ∧
    off0 = u32 order ((data.drop 4).take 4) ∧
    ((order = .le ∧ data.take 2 = [73, 73]) ∨
      (order = .be ∧ data.take 2 = [77, 77])) ∧
    i16 order ((data.drop 2).take 2) = 42 := by
  unfold parseHeader at h
  split at h
  · exact absurd h (by simp)
  rename_i boB rA hA
  obtain ⟨hlA, hbsA, hrA⟩ := readFull_mk_some.mp hA
  rw [List.drop_zero] at hbsA
  subst hbsA
  subst hrA
  have main : ∀ o : ByteOrder,
      parseRest o ⟨data, 0 + 2⟩ = .ok (order, off0, r) →
      8 ≤ data.length ∧ r = ⟨data, 8⟩ ∧
        off0 = u32 order ((data.drop 4).take 4) ∧ order = o ∧
        i16 order ((data.drop 2).take 2) = 42 := by
    intro o ho
    unfold parseRest at ho
    split at ho
    · exact absurd ho (by simp)
    rename_i spB rB hB
    obtain ⟨hlB, hbsB, hrB⟩ := readFull_mk_some.mp hB
    subst hbsB
    subst hrB
    split at ho
    · rename_i h42
      split at ho
      · exact absurd ho (by simp)
      rename_i offB rC hC
      obtain ⟨hlC, hbsC, hrC⟩ := readFull_mk_some.mp hC
      subst hbsC
      subst hrC
      injection ho with ho
      injection ho with hord ho
      injection ho with hoff hr
      subst hord
      subst hoff
      subst hr
      refine ⟨by omega, rfl, rfl, rfl, ?_⟩
      rw [show (0 : Nat) + 2 = 2 by omega] at h42
      exact h42
    · exact absurd ho (by simp)
  split at h
  · rename_i hII
    obtain ⟨h8, hr, hoff, hord, h42⟩ := main ByteOrder.le h
    subst hord
    exact ⟨h8, hr, hoff, Or.inl ⟨rfl, hII⟩, h42⟩
  split at h
  · rename_i hII hMM
    obtain ⟨h8, hr, hoff, hord, h42⟩ := main ByteOrder.be h
    subst hord
    exact ⟨h8, hr, hoff, Or.inr ⟨rfl, hMM⟩, h42⟩
  · exact absurd h (by simp)

/-- A stream whose first two bytes are neither `"II"` nor `"MM"` (including
a stream shorter than two bytes) fails the header parse with the byte-order
error. -/
theorem parseHeader_bo {data : List Nat}
    (h1 : data.take 2 ≠ [73, 73]) (h2 : data.take 2 ≠ [77, 77]) :
    parseHeader ⟨data, 0⟩ = .error .bo := by
  unfold parseHeader
  split
  · rfl
  rename_i boB rA hA
  obtain ⟨-, hbsA, -⟩ := readFull_mk_some.mp hA
  rw [List.drop_zero] at hbsA
  subst hbsA
  rw [if_neg h1, if_neg h2]

/-- A stream with a valid marker, at least 4 bytes, and a magic value that
is not 42 under the established byte order fails the header parse with the
bad-magic error. -/
theorem parseHeader_magicBad {data : List Nat} {order : ByteOrder}
    (hm : (order = .le ∧ data.take 2 = [73, 73]) ∨
      (order = .be ∧ data.take 2 = [77, 77]))
    (hl : 4 ≤ data.length)
    (h42 : i16 order ((data.drop 2).take 2) ≠ 42) :
    parseHeader ⟨data, 0⟩ = .error .magicBad := by
  have hrf : (⟨data, 0⟩ : BReader).readFull 2 =
      some (data.take 2, ⟨data, 2⟩) := by
    refine readFull_mk_some.mpr ⟨by omega, by rw [List.drop_zero], by congr 1⟩
  have hrf2 : (⟨data, 2⟩ : BReader).readFull 2 =
      some ((data.drop 2).take 2, ⟨data, 4⟩) :=
    readFull_mk_some.mpr ⟨by omega, rfl, rfl⟩
  have hrest : parseRest order ⟨data, 2⟩ = .error .magicBad := by
    simp only [parseRest, hrf2]
    rw [if_neg h42]
  rcases hm with ⟨hord, hm⟩ | ⟨hord, hm⟩ <;> subst hord
  · simp only [parseHeader, hrf, hm]
    simpa using hrest
  · simp only [parseHeader, hrf, hm]
    simpa using hrest

/-- Whenever the canonical chain loop returns with an error set, the
returned `Tiff` is `nil`. -/
theorem decodeLoop_err_nil {order : ByteOrder} :
    ∀ (fuel : Nat) (buf : BReader) (offset prev : Nat) (acc : List Dir)
      (res : Option Tiff × Option String),
      decodeLoop fuel buf order offset prev acc = some res →
      res.2.isSome → res.1 = none := by
  intro fuel
  induction fuel with
  | zero =>
    intro buf offset prev acc res h
    exact absurd h (by simp [decodeLoop])
  | succ f ih =>
    intro buf offset prev acc res h hs
    unfold decodeLoop at h
    split at h
    · injection h with h
      subst h
      exact absurd hs (by simp)
    split at h
    · injection h with h
      subst h
      rfl
    split at h
    · injection h with h
      subst h
      rfl
    · split at h
      · injection h with h
        subst h
        rfl
      · exact ih _ _ _ _ _ h hs

/-- Whenever the fast-mode loop returns with an error set, the returned
`Tiff` is `nil`. -/
theorem fileLoop_err_nil {order : ByteOrder} {base : Nat} :
    ∀ (fuel : Nat) (buf : BReader) (noff prev : Nat) (acc : List Dir)
      (res : Option Tiff × Option String),
      fileLoop fuel buf order base noff prev acc = some res →
      res.2.isSome → res.1 = none := by
  intro fuel
  induction fuel with
  | zero =>
    intro buf noff prev acc res h
    exact absurd h (by simp [fileLoop])
  | succ f ih =>
    intro buf noff prev acc res h hs
    unfold fileLoop at h
    split at h
    · injection h with h
      subst h
      exact absurd hs (by simp)
    split at h
    · injection h with h
      subst h
      rfl
    · split at h
      · injection h with h
        subst h
        rfl
      · exact ih _ _ _ _ _ h hs

/-- A successful canonical chain loop returns the loop's byte order and
extends the accumulated directory list, with at least one new directory
whenever the starting offset is non-zero. -/
theorem decodeLoop_ok_elim {order : ByteOrder} :
    ∀ (fuel : Nat) (buf : BReader) (offset prev : Nat) (acc : List Dir)
      (t : Tiff),
      decodeLoop fuel buf order offset prev acc = some (some t, none) →
      t.Order = order ∧ ∃ rest, t.Dirs = acc ++ rest ∧ (rest = [] ↔ offset = 0) := by
  intro fuel
  induction fuel with
  | zero =>
    intro buf offset prev acc t h
    exact absurd h (by simp [decodeLoop])
  | succ f ih =>
    intro buf offset prev acc t h
    unfold decodeLoop at h
    split at h
    · rename_i h0
      injection h with h
      injection h with h1 h2
      injection h1 with h1
      subst h1
      exact ⟨rfl, [], by simp, by simp [h0]⟩
    rename_i h0
    split at h
    · injection h with h
      injection h with h1 h2
      exact absurd h1 (by simp)
    split at h
    · injection h with h
      injection h with h1 h2
      exact absurd h1 (by simp)
    · rename_i d next buf1 hdir
      split at h
      · injection h with h
        injection h with h1 h2
        exact absurd h1 (by simp)
      · obtain ⟨hord, rest1, hdirs, -⟩ := ih _ _ _ _ _ h
        refine ⟨hord, d :: rest1, by simpa using hdirs, ?_⟩
        simp [h0]

/-- A successful fast-mode loop returns the loop's byte order and extends
the accumulated directory list, with at least one new directory whenever
the starting next-offset is non-zero. -/
theorem fileLoop_ok_elim {order : ByteOrder} {base : Nat} :
    ∀ (fuel : Nat) (buf : BReader) (noff prev : Nat) (acc : List Dir)
      (t : Tiff),
      fileLoop fuel buf order base noff prev acc = some (some t, none) →
      t.Order = order ∧ ∃ rest, t.Dirs = acc ++ rest ∧ (rest = [] ↔ noff = 0) := by
  intro fuel
  induction fuel with
  | zero =>
    intro buf noff prev acc t h
    exact absurd h (by simp [fileLoop])
  | succ f ih =>
    intro buf noff prev acc t h
    unfold fileLoop at h
    split at h
    · rename_i h0
      injection h with h
      injection h with h1 h2
      injection h1 with h1
      subst h1
      exact ⟨rfl, [], by simp, by simp [h0]⟩
    rename_i h0
    split at h
    · injection h with h
      injection h with h1 h2
      exact absurd h1 (by simp)
    · rename_i d next buf1 hdir
      split at h
      · injection h with h
        injection h with h1 h2
        exact absurd h1 (by simp)
      · obtain ⟨hord, rest1, hdirs, -⟩ := ih _ _ _ _ _ h
        refine ⟨hord, d :: rest1, by simpa using hdirs, ?_⟩
        simp [h0]

/-- Window correspondence for one tag: a tag that decodes at absolute
position `k + p` of the full stream with window base 0 also decodes, with
the identical result, at position `p` of the window `data.drop k` with
window base `k`, provided its out-of-line reference (if any) does not fall
before the window base. -/
theorem decodeTag_shift {data : List Nat} {k p : Nat} {order : ByteOrder}
    {t : Tag} {rf : BReader}
    (h : decodeTag ⟨data, k + p⟩ order 0 = .ok (t, rf))
    (hloc : 4 < typeSize t.typ * t.count → k ≤ t.valOffset) :
    decodeTag ⟨data.drop k, p⟩ order k = .ok (t, ⟨data.drop k, p + 12⟩) := by
  obtain ⟨hlen, -, hid, hty, hcnt, hrest⟩ := decodeTag_ok_iff.mp h
  apply decodeTag_ok_iff.mpr
  refine ⟨by rw [List.length_drop]; omega, rfl, ?_, ?_, ?_, ?_⟩
  · rw [List.drop_drop]
    exact hid
  · rw [List.drop_drop]
    rw [show k + (p + 2) = k + p + 2 by omega]
    exact hty
  · rw [List.drop_drop]
    rw [show k + (p + 4) = k + p + 4 by omega]
    exact hcnt
  · rcases hrest with ⟨hgt, hvo, -, hvr, hv⟩ | ⟨hle, hvo, hv⟩
    · left
      have hkv : k ≤ t.valOffset := hloc hgt
      rw [Nat.sub_zero] at hvr hv
      refine ⟨hgt, ?_, by omega, ?_, ?_⟩
      · rw [List.drop_drop]
        rw [show k + (p + 8) = k + p + 8 by omega]
        exact hvo
      · rw [List.length_drop]
        omega
      · rw [List.drop_drop]
        rw [show k + (t.valOffset - k) = t.valOffset by omega]
        exact hv
    · right
      refine ⟨hle, hvo, ?_⟩
      rw [List.drop_drop]
      rw [show k + (p + 8) = k + p + 8 by omega]
      exact hv

/-- Window correspondence for the tag loop: `n` tags decoded from absolute
position `k + p` with base 0 decode identically from window position `p`
with base `k` when none of them refers out-of-line before the base. -/
theorem decodeTags_shift {order : ByteOrder} {k : Nat} {data : List Nat} :
    ∀ {n p : Nat} {ts : List Tag} {rf : BReader},
      decodeTags n ⟨data, k + p⟩ order 0 = .ok (ts, rf) →
      (∀ tg ∈ ts, 4 < typeSize tg.typ * tg.count → k ≤ tg.valOffset) →
      decodeTags n ⟨data.drop k, p⟩ order k = .ok (ts, ⟨data.drop k, p + 12 * n⟩) := by
  intro n
  induction n with
  | zero =>
    intro p ts rf h hloc
    unfold decodeTags at h ⊢
    injection h with h
    injection h with hts hrf
    subst hts
    rw [show p + 12 * 0 = p by omega]
  | succ m ih =>
    intro p ts rf h hloc
    unfold decodeTags at h
    split at h
    · exact absurd h (by simp)
    rename_i t rA hA
    obtain ⟨hrA, hlA⟩ := decodeTag_consume hA
    simp only at hrA
    subst hrA
    split at h
    · exact absurd h (by simp)
    rename_i ts1 rB hB
    injection h with h
    injection h with hts hrf
    subst hts
    have hhead : decodeTag ⟨data.drop k, p⟩ order k = .ok (t, ⟨data.drop k, p + 12⟩) :=
      decodeTag_shift hA (hloc t (by simp))
    have htail : decodeTags m ⟨data.drop k, p + 12⟩ order k =
        .ok (ts1, ⟨data.drop k, (p + 12) + 12 * m⟩) := by
      have hB2 : decodeTags m ⟨data, k + (p + 12)⟩ order 0 = .ok (ts1, rB) := by
        rw [show k + (p + 12) = k + p + 12 by omega]
        exact hB
      exact ih hB2 (fun tg htg => hloc tg (by simp [htg]))
    simp only [decodeTags, hhead, htail]
    rw [show (p + 12) + 12 * m = p + 12 * (m + 1) by omega]

/-- Window correspondence for a whole directory: a directory that decodes
at absolute position `k + p` with base 0, all of whose tags satisfy the
locality condition, decodes identically (same tags, same next-offset) from
window position `p` with base `k`. -/
theorem DecodeDir_shift {order : ByteOrder} {k p : Nat} {data : List Nat}
    {d : Dir} {off : Nat} {rf : BReader}
    (h : DecodeDir ⟨data, k + p⟩ order 0 = .ok (d, off, rf))
    (hloc : ∀ tg ∈ d.Tags, 4 < typeSize tg.typ * tg.count → k ≤ tg.valOffset) :
    DecodeDir ⟨data.drop k, p⟩ order k =
      .ok (d, off, ⟨data.drop k, p + 6 + 12 * d.Tags.length⟩) := by
  unfold DecodeDir at h
  split at h
  · exact absurd h (by simp)
  rename_i cntB rA hA
  obtain ⟨hlA, hbsA, hrA⟩ := readFull_mk_some.mp hA
  subst hbsA
  subst hrA
  split at h
  · exact absurd h (by simp)
  rename_i ts rB hB
  obtain ⟨hlts, hrB, -⟩ := decodeTags_elim hB
  subst hrB
  split at h
  · exact absurd h (by simp)
  rename_i offB rC hC
  obtain ⟨hlC, hbsC, hrC⟩ := readFull_mk_some.mp hC
  subst hbsC
  subst hrC
  injection h with h
  injection h with hd h
  injection h with hoff hrf
  subst hd
  subst hoff
  have hA2 : (⟨data.drop k, p⟩ : BReader).readFull 2 =
      some ((data.drop (k + p)).take 2, ⟨data.drop k, p + 2⟩) := by
    refine readFull_mk_some.mpr ⟨by rw [List.length_drop]; omega, ?_, rfl⟩
    rw [List.drop_drop]
  have hB1 : decodeTags (i16 order ((data.drop (k + p)).take 2)).toNat
      ⟨data, k + (p + 2)⟩ order 0 = .ok (ts, ⟨data, k + p + 2 +
        12 * (i16 order ((data.drop (k + p)).take 2)).toNat⟩) := by
    rw [show k + (p + 2) = k + p + 2 by omega]
    exact hB
  have hB2 := decodeTags_shift hB1 (by
    intro tg htg
    apply hloc tg
    simpa using htg)
  have hC2 : (⟨data.drop k, p + 2 + 12 *
        (i16 order ((data.drop (k + p)).take 2)).toNat⟩ : BReader).readFull 4 =
      some ((data.drop (k + p + 2 +
          12 * (i16 order ((data.drop (k + p)).take 2)).toNat)).take 4,
        ⟨data.drop k, p + 2 + 12 *
          (i16 order ((data.drop (k + p)).take 2)).toNat + 4⟩) := by
    refine readFull_mk_some.mpr ⟨by rw [List.length_drop]; omega, ?_, rfl⟩
    rw [List.drop_drop]
    congr 2
    omega
  have hpos : p + 2 + 12 * (i16 order ((data.drop (k + p)).take 2)).toNat + 4
      = p + 6 + 12 * ts.length := by
    rw [hlts]
    omega
  simp only [DecodeDir, hA2, hB2, hC2]
  rw [hpos]

/-- Agreement between the structural entry scan and the tag decoder at the
same position: the scan consumes the same 12 bytes, reports the decoder's
type and count, and whenever the decoder succeeds on an out-of-line entry
its stored offset is the scanned slot value and lies at or after the
window base. -/
theorem scanEntry_decodeTag {data : List Nat} {q : Nat} {order : ByteOrder}
    (base : Nat) {ty cnt sl : Nat} {r1 : BReader}
    (h : scanEntry ⟨data, q⟩ order = some ((ty, cnt, sl), r1)) :
    r1 = ⟨data, q + 12⟩ ∧
    ((∃ e, decodeTag ⟨data, q⟩ order base = .error e) ∨
      (∃ t rt, decodeTag ⟨data, q⟩ order base = .ok (t, rt) ∧
        t.typ = ty ∧ t.count = cnt ∧
        (4 < typeSize ty * cnt → t.valOffset = sl ∧ base ≤ sl))) := by
  unfold scanEntry at h
  split at h
  · exact absurd h (by simp)
  rename_i idB rA hA
  obtain ⟨hlA, -, hrA⟩ := readFull_mk_some.mp hA
  subst hrA
  split at h
  · exact absurd h (by simp)
  rename_i tyB rB hB
  obtain ⟨hlB, hbsB, hrB⟩ := readFull_mk_some.mp hB
  subst hbsB
  subst hrB
  split at h
  · exact absurd h (by simp)
  rename_i cntB rC hC
  obtain ⟨hlC, hbsC, hrC⟩ := readFull_mk_some.mp hC
  subst hbsC
  subst hrC
  split at h
  · exact absurd h (by simp)
  rename_i slotB rD hD
  obtain ⟨hlD, hbsD, hrD⟩ := readFull_mk_some.mp hD
  subst hbsD
  subst hrD
  injection h with h
  injection h with hv hr1
  injection hv with hty hv
  injection hv with hcnt hsl
  subst hty
  subst hcnt
  subst hsl
  subst hr1
  refine ⟨rfl, ?_⟩
  cases hdt : decodeTag ⟨data, q⟩ order base with
  | error e => exact Or.inl ⟨e, rfl⟩
  | ok p =>
    obtain ⟨t, rt⟩ := p
    obtain ⟨-, -, -, hty2, hcnt2, hrest⟩ := decodeTag_ok_iff.mp hdt
    refine Or.inr ⟨t, rt, rfl, hty2, hcnt2, ?_⟩
    intro hgt
    rcases hrest with ⟨-, hvo, hba, -, -⟩ | ⟨hle, -, -⟩
    · exact ⟨hvo, hvo ▸ hba⟩
    · have hgt2 : 4 < typeSize t.typ * t.count := by
        rw [hty2, hcnt2]
        exact hgt
      omega

/-- If the structural scan of `n` entries succeeds and some scanned entry
declares an out-of-line value (`4 < typeSize * count`) at an offset below
the window base `k`, then decoding those `n` entries with base `k` fails. -/
theorem scanEntries_early_err {order : ByteOrder} {k : Nat} :
    ∀ {n q : Nat} {data : List Nat} {es : List (Nat × Nat × Nat)} {r2 : BReader},
      scanEntries n ⟨data, q⟩ order = some (es, r2) →
      es.any (fun e => decide (4 < typeSize e.1 * e.2.1) && decide (e.2.2 < k)) = true →
      ∃ e, decodeTags n ⟨data, q⟩ order k = .error e := by
  intro n
  induction n with
  | zero =>
    intro q data es r2 h hany
    unfold scanEntries at h
    injection h with h
    injection h with hes hr2
    subst hes
    exact absurd hany (by simp)
  | succ m ih =>
    intro q data es r2 h hany
    unfold scanEntries at h
    split at h
    · exact absurd h (by simp)
    rename_i ent rA hA
    split at h
    · exact absurd h (by simp)
    rename_i es1 rB hB
    injection h with h
    injection h with hes hr2
    subst hes
    obtain ⟨ty, cnt, sl⟩ := ent
    obtain ⟨hrA, hdec⟩ := scanEntry_decodeTag k hA
    subst hrA
    rw [List.any_cons] at hany
    rcases hdec with ⟨e, herr⟩ | ⟨t, rt, hok, hty, hcnt, hout⟩
    · refine ⟨e, ?_⟩
      simp only [decodeTags, herr]
    · obtain ⟨hrt, -⟩ := decodeTag_consume hok
      simp only at hrt
      subst hrt
      rcases Bool.or_eq_true_iff.mp hany with hhd | htl
      · rw [Bool.and_eq_true_iff] at hhd
        obtain ⟨hgt, hlt⟩ := hhd
        rw [decide_eq_true_iff] at hgt hlt
        dsimp only at hgt hlt
        obtain ⟨-, hba⟩ := hout hgt
        omega
      · obtain ⟨e, herr⟩ := ih hB htl
        refine ⟨e, ?_⟩
        simp only [decodeTags, hok, herr]

/-- A stream whose first fast-mode directory structurally declares an
out-of-line tag value before the window base makes `DecodeFile` fail. -/
theorem earlyRef_DecodeFile_err {data : List Nat}
    (h : earlyRefB data = true) :
    ∃ e, DecodeFile data = some (none, some e) := by
  unfold earlyRefB at h
  split at h
  · exact absurd h (by simp)
  rename_i order offset0 rh hph
  split at h
  · exact absurd h (by simp)
  rename_i cntB r1 hcnt
  split at h
  · exact absurd h (by simp)
  rename_i es r2 hscan
  obtain ⟨hl1, hbs1, hr1⟩ := readFull_mk_some.mp hcnt
  subst hbs1
  subst hr1
  obtain ⟨e, herr⟩ := scanEntries_early_err hscan h
  have h0 : offset0 ≠ 0 := by
    rw [List.any_eq_true] at h
    obtain ⟨ent, -, hent⟩ := h
    rw [Bool.and_eq_true_iff] at hent
    have := decide_eq_true_iff.mp hent.2
    omega
  have hdir : DecodeDir ⟨data.drop offset0, 0⟩ order offset0 = .error e := by
    have hrf : (⟨data.drop offset0, 0⟩ : BReader).readFull 2 =
        some (((data.drop offset0).drop 0).take 2, ⟨data.drop offset0, 0 + 2⟩) :=
      readFull_mk_some.mpr ⟨hl1, rfl, rfl⟩
    simp only [DecodeDir, hrf, herr]
  refine ⟨e, ?_⟩
  unfold DecodeFile
  rw [hph]
  simp only [fileLoop, if_neg h0, hdir]

theorem decodeLoop_succ (fuel : Nat) (buf : BReader) (order : ByteOrder)
    (offset prev : Nat) (acc : List Dir) :
    decodeLoop (fuel + 1) buf order offset prev acc =
      if offset = 0 then some (some ⟨acc, order⟩, none)
      else if buf.data.length ≤ offset then
        some (none, some ("tiff: seek offset after EOF"))
      else
        match DecodeDir ⟨buf.data, offset⟩ order 0 with
        | .error e => some (none, some e)
        | .ok (d, next, buf1) =>
          if next = prev then some (none, some ("tiff: recursive IFD"))
          else decodeLoop fuel buf1 order next next (acc ++ [d]) := rfl

theorem fileLoop_succ (fuel : Nat) (buf : BReader) (order : ByteOrder)
    (base noff prev : Nat) (acc : List Dir) :
    fileLoop (fuel + 1) buf order base noff prev acc =
      if noff = 0 then some (some ⟨acc, order⟩, none)
      else
        match DecodeDir buf order base with
        | .error e => some (none, some e)
        | .ok (d, next, buf1) =>
          if next = prev then some (none, some ("tiff: recursive IFD"))
          else fileLoop fuel buf1 order base next next (acc ++ [d]) := rfl

/-- The canonical chain loop, entered at a non-zero in-range offset `p`
with `prev = p` (the invariant of every reachable iteration), fails with
the cycle error when the directory at `p` declares `p` itself as the next
offset. -/
theorem decodeLoop_cycle_err {order : ByteOrder} (fuel : Nat) (buf : BReader)
    (p : Nat) (acc : List Dir) (d : Dir) (rd : BReader)
    (hp : p ≠ 0) (hlt : p < buf.data.length)
    (hdir : DecodeDir ⟨buf.data, p⟩ order 0 = .ok (d, p, rd)) :
    decodeLoop (fuel + 1) buf order p p acc =
      some (none, some ("tiff: recursive IFD")) := by
  rw [decodeLoop_succ, if_neg hp, if_neg (by omega)]
  simp only [hdir]
  simp

/-- The fast-mode loop, at a state whose pending next-offset `p` equals the
previous offset invariantly, fails with the cycle error when the directory
decoded from the current cursor declares `p` as the next offset. -/
theorem fileLoop_cycle_err {order : ByteOrder} (fuel : Nat) (buf : BReader)
    (base p : Nat) (acc : List Dir) (d : Dir) (rd : BReader)
    (hp : p ≠ 0)
    (hdir : DecodeDir buf order base = .ok (d, p, rd)) :
    fileLoop (fuel + 1) buf order base p p acc =
      some (none, some ("tiff: recursive IFD")) := by
  rw [fileLoop_succ, if_neg hp]
  simp only [hdir]
  simp

/-- The canonical chain loop fails with the seek-after-EOF error whenever
its current offset is non-zero and at or past the end of the data. -/
theorem decodeLoop_eof_err {order : ByteOrder} (fuel : Nat) (buf : BReader)
    (offset prev : Nat) (acc : List Dir)
    (h0 : offset ≠ 0) (hend : buf.data.length ≤ offset) :
    decodeLoop (fuel + 1) buf order offset prev acc =
      some (none, some ("tiff: seek offset after EOF")) := by
  rw [decodeLoop_succ, if_neg h0, if_pos hend]

/-- A successful `Decode` determines a successful header parse under the
returned byte order. -/
theorem Decode_ok_parseHeader {data : List Nat} {t : Tiff}
    (h : Decode data = some (some t, none)) :
    ∃ off0 r, parseHeader ⟨data, 0⟩ = .ok (t.Order, off0, r) := by
  unfold Decode at h
  split at h
  · exact absurd h (by simp)
  · exact absurd h (by simp)
  · exact absurd h (by simp)
  · exact absurd h (by simp)
  · rename_i order off0 r hph
    obtain ⟨hord, -⟩ := decodeLoop_ok_elim _ _ _ _ _ _ h
    subst hord
    exact ⟨off0, r, hph⟩

/-- A successful `DecodeFile` determines a successful header parse under
the returned byte order. -/
theorem DecodeFile_ok_parseHeader {data : List Nat} {t : Tiff}
    (h : DecodeFile data = some (some t, none)) :
    ∃ off0 r, parseHeader ⟨data, 0⟩ = .ok (t.Order, off0, r) := by
  unfold DecodeFile at h
  split at h
  · exact absurd h (by simp)
  · exact absurd h (by simp)
  · exact absurd h (by simp)
  · exact absurd h (by simp)
  · rename_i order off0 r hph
    obtain ⟨hord, -⟩ := fileLoop_ok_elim _ _ _ _ _ _ h
    subst hord
    exact ⟨off0, r, hph⟩

/-- Claim C3: decoding establishes little-endian byte order exactly when
the first two bytes are `"II"` and big-endian exactly when they are
`"MM"`; any other first two bytes — including a stream too short to hold
them — fail both entry points with the byte-order error (never a
truncated-structure error); and a well-formed marker followed by a 2-byte
value that is not 42 under the established order fails with the
magic-marker error, which is distinct from the byte-order error. -/
theorem claim3_header_detection :
    (∀ data : List Nat, data.take 2 ≠ [73, 73] → data.take 2 ≠ [77, 77] →
      Decode data = some (none, some ("tiff: could not read tiff byte order")) ∧
      DecodeFile data = some (none, some ("tiff: could not read tiff byte order"))) ∧
    (∀ (data : List Nat) (t : Tiff),
      Decode data = some (some t, none) ∨ DecodeFile data = some (some t, none) →
      ((t.Order = .le ↔ data.take 2 = [73, 73]) ∧
        (t.Order = .be ↔ data.take 2 = [77, 77]))) ∧
    (∀ (data : List Nat) (order : ByteOrder),
      ((order = .le ∧ data.take 2 = [73, 73]) ∨
        (order = .be ∧ data.take 2 = [77, 77])) →
      4 ≤ data.length →
      i16 order ((data.drop 2).take 2) ≠ 42 →
      Decode data = some (none, some ("tiff: could not find special tiff marker")) ∧
      DecodeFile data = some (none, some ("tiff: could not find special tiff marker"))) ∧
    ("tiff: could not find special tiff marker" ≠
      "tiff: could not read tiff byte order") := by
  refine ⟨?_, ?_, ?_, by decide⟩
  · intro data h1 h2
    have hbo := parseHeader_bo h1 h2
    constructor
    · simp only [Decode, hbo]
    · simp only [DecodeFile, hbo]
  · intro data t h
    have hph : ∃ off0 r, parseHeader ⟨data, 0⟩ = .ok (t.Order, off0, r) := by
      rcases h with h | h
      · exact Decode_ok_parseHeader h
      · exact DecodeFile_ok_parseHeader h
    obtain ⟨off0, r, hph⟩ := hph
    obtain ⟨-, -, -, hmk, -⟩ := parseHeader_ok_elim hph
    rcases hmk with ⟨hord, hm⟩ | ⟨hord, hm⟩
    · rw [hord, hm]
      refine ⟨by simp, ?_⟩
      constructor
      · intro hbe
        exact absurd hbe (by simp)
      · intro hmm
        exact absurd hmm (by decide)
    · rw [hord, hm]
      refine ⟨?_, by simp⟩
      constructor
      · intro hle
        exact absurd hle (by simp)
      · intro hii
        exact absurd hii (by decide)
  · intro data order hm hl h42
    have hmb := parseHeader_magicBad hm hl h42
    constructor
    · simp only [Decode, hmb]
    · simp only [DecodeFile, hmb]

theorem claim3_witness :
    Decode [0, 1, 2, 3] =
      some (none, some ("tiff: could not read tiff byte order")) ∧
    DecodeFile [73] =
      some (none, some ("tiff: could not read tiff byte order")) ∧
    Decode [73, 73, 0, 0] =
      some (none, some ("tiff: could not find special tiff marker")) ∧
    DecodeFile [77, 77, 42, 0, 1, 2] =
      some (none, some ("tiff: could not find special tiff marker")) := by
  refine ⟨?_, ?_, ?_, ?_⟩
  · exact (claim3_header_detection.1 [0, 1, 2, 3] (by decide) (by decide)).1
  · exact (claim3_header_detection.1 [73] (by decide) (by decide)).2
  · exact (claim3_header_detection.2.2.1 [73, 73, 0, 0] .le
      (Or.inl ⟨rfl, by decide⟩) (by decide) (by decide)).1
  · exact (claim3_header_detection.2.2.1 [77, 77, 42, 0, 1, 2] .be
      (Or.inr ⟨rfl, by decide⟩) (by decide) (by decide)).2

/-- Claim C4: whenever a decoded directory's next-directory offset equals
the offset of the directory just processed, both the canonical and the
fast walk fail with the "recursive IFD" error instead of decoding that
directory again — stated for an arbitrary reachable loop state (where the
previous offset invariantly equals the current one) and end-to-end for the
first directory of each entry point. -/
theorem claim4_recursive_ifd :
    (∀ (fuel : Nat) (buf : BReader) (order : ByteOrder) (p : Nat)
       (acc : List Dir) (d : Dir) (rd : BReader),
       p ≠ 0 → p < buf.data.length →
       DecodeDir ⟨buf.data, p⟩ order 0 = .ok (d, p, rd) →
       decodeLoop (fuel + 1) buf order p p acc =
         some (none, some ("tiff: recursive IFD"))) ∧
    (∀ (fuel : Nat) (buf : BReader) (order : ByteOrder) (base p : Nat)
       (acc : List Dir) (d : Dir) (rd : BReader),
       p ≠ 0 →
       DecodeDir buf order base = .ok (d, p, rd) →
       fileLoop (fuel + 1) buf order base p p acc =
         some (none, some ("tiff: recursive IFD"))) ∧
    (∀ (data : List Nat) (order : ByteOrder) (off0 : Nat) (r : BReader)
       (d : Dir) (rd : BReader),
       parseHeader ⟨data, 0⟩ = .ok (order, off0, r) →
       off0 ≠ 0 → off0 < data.length →
       DecodeDir ⟨data, off0⟩ order 0 = .ok (d, off0, rd) →
       Decode data = some (none, some ("tiff: recursive IFD"))) ∧
    (∀ (data : List Nat) (order : ByteOrder) (off0 : Nat) (r : BReader)
       (d : Dir) (rd : BReader),
       parseHeader ⟨data, 0⟩ = .ok (order, off0, r) →
       off0 ≠ 0 →
       DecodeDir ⟨data.drop off0, 0⟩ order off0 = .ok (d, off0, rd) →
       DecodeFile data = some (none, some ("tiff: recursive IFD"))) := by
  refine ⟨?_, ?_, ?_, ?_⟩
  · intro fuel buf order p acc d rd hp hlt hdir
    exact decodeLoop_cycle_err fuel buf p acc d rd hp hlt hdir
  · intro fuel buf order base p acc d rd hp hdir
    exact fileLoop_cycle_err fuel buf base p acc d rd hp hdir
  · intro data order off0 r d rd hph h0 hlt hdir
    obtain ⟨h8, hr, -, -, -⟩ := parseHeader_ok_elim hph
    subst hr
    simp only [Decode, hph]
    obtain ⟨m, hm⟩ : ∃ m, data.length + 1 = m + 1 := ⟨data.length, rfl⟩
    rw [hm]
    exact decodeLoop_cycle_err m ⟨data, 8⟩ off0 [] d rd h0 hlt hdir
  · intro data order off0 r d rd hph h0 hdir
    simp only [DecodeFile, hph]
    obtain ⟨m, hm⟩ : ∃ m, data.length + 1 = m + 1 := ⟨data.length, rfl⟩
    rw [hm]
    exact fileLoop_cycle_err m ⟨data.drop off0, 0⟩ off0 off0 [] d rd h0 hdir

theorem claim4_witness :
    Decode exStreamSelf = some (none, some ("tiff: recursive IFD")) ∧
    DecodeFile exStreamSelf = some (none, some ("tiff: recursive IFD")) := by
  constructor
  · exact claim4_recursive_ifd.2.2.1 exStreamSelf .le 8 ⟨exStreamSelf, 8⟩
      ⟨[]⟩ ⟨exStreamSelf, 14⟩ (by decide) (by decide) (by decide) (by decide)
  · exact claim4_recursive_ifd.2.2.2 exStreamSelf .le 8 ⟨exStreamSelf, 8⟩
      ⟨[]⟩ ⟨exStreamSelf.drop 8, 6⟩ (by decide) (by decide) (by decide)

/-- Claim C7: in the canonical decode, whenever the current non-zero
directory offset lies at or beyond the end of the data, the walk fails
with the seek-after-EOF error instead of decoding past the end — stated
for an arbitrary loop state and end-to-end for the first offset. -/
theorem claim7_seek_after_eof :
    (∀ (fuel : Nat) (buf : BReader) (order : ByteOrder) (offset prev : Nat)
       (acc : List Dir),
       offset ≠ 0 → buf.data.length ≤ offset →
       decodeLoop (fuel + 1) buf order offset prev acc =
         some (none, some ("tiff: seek offset after EOF"))) ∧
    (∀ (data : List Nat) (order : ByteOrder) (off0 : Nat) (r : BReader),
       parseHeader ⟨data, 0⟩ = .ok (order, off0, r) →
       off0 ≠ 0 → data.length ≤ off0 →
       Decode data = some (none, some ("tiff: seek offset after EOF"))) := by
  constructor
  · intro fuel buf order offset prev acc h0 hend
    exact decodeLoop_eof_err fuel buf offset prev acc h0 hend
  · intro data order off0 r hph h0 hend
    obtain ⟨h8, hr, -, -, -⟩ := parseHeader_ok_elim hph
    subst hr
    simp only [Decode, hph]
    obtain ⟨m, hm⟩ : ∃ m, data.length + 1 = m + 1 := ⟨data.length, rfl⟩
    rw [hm]
    exact decodeLoop_eof_err m ⟨data, 8⟩ off0 off0 [] h0 hend

theorem claim7_witness :
    Decode exStreamFar = some (none, some ("tiff: seek offset after EOF")) :=
  claim7_seek_after_eof.2 exStreamFar .le 200 ⟨exStreamFar, 8⟩
    (by decide) (by decide) (by decide)

/-- Claim C9: a stream with a valid header whose first-IFD offset field is
0 decodes successfully in both entry points, yielding the detected byte
order and an empty directory list. -/
theorem claim9_zero_first_offset :
    ∀ (data : List Nat) (order : ByteOrder) (r : BReader),
      parseHeader ⟨data, 0⟩ = .ok (order, 0, r) →
      Decode data = some (some ⟨[], order⟩, none) ∧
      DecodeFile data = some (some ⟨[], order⟩, none) := by
  intro data order r hph
  constructor
  · simp only [Decode, hph]
    obtain ⟨m, hm⟩ : ∃ m, data.length + 1 = m + 1 := ⟨data.length, rfl⟩
    rw [hm, decodeLoop_succ, if_pos rfl]
  · simp only [DecodeFile, hph]
    obtain ⟨m, hm⟩ : ∃ m, data.length + 1 = m + 1 := ⟨data.length, rfl⟩
    rw [hm, fileLoop_succ, if_pos rfl]

theorem claim9_witness :
    Decode exStreamEmpty = some (some ⟨[], .le⟩, none) ∧
    DecodeFile exStreamEmpty = some (some ⟨[], .le⟩, none) :=
  claim9_zero_first_offset exStreamEmpty .le ⟨exStreamEmpty, 8⟩ (by decide)

/-- Claim C6: a successful `DecodeDir` returns a directory with exactly as
many tags as the decoded 2-byte tag count (equal to the signed count
whenever that count is non-negative), decoded in on-disk order from
consecutive 12-byte entries, together with the 4-byte next-directory
offset read immediately after the last tag; and a failure decoding any tag
aborts `DecodeDir` with that tag's error, so no directory is returned. -/
theorem claim6_dir_contract :
    (∀ (data : List Nat) (q : Nat) (order : ByteOrder) (base : Nat) (d : Dir)
       (off : Nat) (r3 : BReader),
       DecodeDir ⟨data, q⟩ order base = .ok (d, off, r3) →
       d.Tags.length = (i16 order ((data.drop q).take 2)).toNat ∧
       (0 ≤ i16 order ((data.drop q).take 2) →
         (d.Tags.length : Int) = i16 order ((data.drop q).take 2)) ∧
       (∀ i, i < d.Tags.length →
         decodeTag ⟨data, q + 2 + 12 * i⟩ order base =
           .ok (d.Tags.getD i dfltTag, ⟨data, q + 2 + 12 * (i + 1)⟩)) ∧
       off = u32 order ((data.drop (q + 2 + 12 * d.Tags.length)).take 4) ∧
       r3 = ⟨data, q + 6 + 12 * d.Tags.length⟩) ∧
    (∀ (data : List Nat) (q i : Nat) (order : ByteOrder) (base : Nat)
       (e : String),
       q + 2 ≤ data.length →
       i < (i16 order ((data.drop q).take 2)).toNat →
       (∀ j, j < i → ∃ tj, decodeTag ⟨data, q + 2 + 12 * j⟩ order base =
         .ok (tj, ⟨data, q + 2 + 12 * (j + 1)⟩)) →
       decodeTag ⟨data, q + 2 + 12 * i⟩ order base = .error e →
       DecodeDir ⟨data, q⟩ order base = .error e) := by
  constructor
  · intro data q order base d off r3 h
    obtain ⟨h2, hlen, hidx, hoff, hr3, -⟩ := DecodeDir_ok_elim h
    refine ⟨hlen, ?_, hidx, hoff, hr3⟩
    intro hnn
    rw [hlen]
    exact Int.toNat_of_nonneg hnn
  · intro data q i order base e hq hi hok herr
    exact DecodeDir_err_intro hq hi hok herr

theorem claim6_witness :
    DecodeDir ⟨exDirBytes, 0⟩ .le 0 =
      .ok (⟨[⟨256, 3, 1, 0, [100, 0]⟩]⟩, 0, ⟨exDirBytes, 18⟩) ∧
    (⟨[⟨256, 3, 1, 0, [100, 0]⟩]⟩ : Dir).Tags.length =
      (i16 .le ((exDirBytes.drop 0).take 2)).toNat ∧
    DecodeDir ⟨exDirFail, 0⟩ .le 0 = .error ("tiff: tag type read failed") := by
  refine ⟨by decide, ?_, ?_⟩
  · exact (claim6_dir_contract.1 exDirBytes 0 .le 0 ⟨[⟨256, 3, 1, 0, [100, 0]⟩]⟩
      0 ⟨exDirBytes, 18⟩ (by decide)).1
  · exact claim6_dir_contract.2 exDirFail 0 0 .le 0
      ("tiff: tag type read failed") (by decide) (by decide)
      (by intro j hj; omega) (by decide)

/-- Claim C8: whenever `Decode` or `DecodeFile` returns with an error set,
the returned `Tiff` is nil — there is no partial result — and the first
error produced by a directory decode aborts the whole decode and is
returned unchanged by both entry points. -/
theorem claim8_no_partial_result :
    (∀ (data : List Nat) (res : Option Tiff × Option String),
       Decode data = some res → res.2.isSome → res.1 = none) ∧
    (∀ (data : List Nat) (res : Option Tiff × Option String),
       DecodeFile data = some res → res.2.isSome → res.1 = none) ∧
    (∀ (data : List Nat) (order : ByteOrder) (off0 : Nat) (r : BReader)
       (e : String),
       parseHeader ⟨data, 0⟩ = .ok (order, off0, r) →
       off0 ≠ 0 → off0 < data.length →
       DecodeDir ⟨data, off0⟩ order 0 = .error e →
       Decode data = some (none, some e)) ∧
    (∀ (data : List Nat) (order : ByteOrder) (off0 : Nat) (r : BReader)
       (e : String),
       parseHeader ⟨data, 0⟩ = .ok (order, off0, r) →
       off0 ≠ 0 →
       DecodeDir ⟨data.drop off0, 0⟩ order off0 = .error e →
       DecodeFile data = some (none, some e)) := by
  refine ⟨?_, ?_, ?_, ?_⟩
  · intro data res h hs
    unfold Decode at h
    split at h
    · injection h with h
      subst h
      rfl
    · injection h with h
      subst h
      rfl
    · injection h with h
      subst h
      rfl
    · injection h with h
      subst h
      rfl
    · exact decodeLoop_err_nil _ _ _ _ _ _ h hs
  · intro data res h hs
    unfold DecodeFile at h
    split at h
    · injection h with h
      subst h
      rfl
    · injection h with h
      subst h
      rfl
    · injection h with h
      subst h
      rfl
    · injection h with h
      subst h
      rfl
    · exact fileLoop_err_nil _ _ _ _ _ _ h hs
  · intro data order off0 r e hph h0 hlt hdir
    obtain ⟨h8, hr, -, -, -⟩ := parseHeader_ok_elim hph
    subst hr
    simp only [Decode, hph]
    obtain ⟨m, hm⟩ : ∃ m, data.length + 1 = m + 1 := ⟨data.length, rfl⟩
    rw [hm, decodeLoop_succ, if_neg h0, if_neg (by dsimp only; omega)]
    simp only [hdir]
  · intro data order off0 r e hph h0 hdir
    simp only [DecodeFile, hph]
    obtain ⟨m, hm⟩ : ∃ m, data.length + 1 = m + 1 := ⟨data.length, rfl⟩
    rw [hm, fileLoop_succ, if_neg h0]
    simp only [hdir]

theorem claim8_witness :
    Decode exStreamTagErr = some (none, some ("tiff: tag id read failed")) ∧
    DecodeFile exStreamTagErr =
      some (none, some ("tiff: tag id read failed")) ∧
    ((none : Option Tiff), some ("tiff: tag id read failed")).1 = none := by
  refine ⟨?_, ?_, ?_⟩
  · exact claim8_no_partial_result.2.2.1 exStreamTagErr .le 8
      ⟨exStreamTagErr, 8⟩ ("tiff: tag id read failed")
      (by decide) (by decide) (by decide) (by decide)
  · exact claim8_no_partial_result.2.2.2 exStreamTagErr .le 8
      ⟨exStreamTagErr, 8⟩ ("tiff: tag id read failed")
      (by decide) (by decide) (by decide)
  · exact claim8_no_partial_result.1 exStreamTagErr
      (none, some ("tiff: tag id read failed"))
      (claim8_no_partial_result.2.2.1 exStreamTagErr .le 8
        ⟨exStreamTagErr, 8⟩ ("tiff: tag id read failed")
        (by decide) (by decide) (by decide) (by decide))
      (by decide)

/-- Claim C10: `DecodeDir` reads the 2-byte tag count as a signed 16-bit
integer: when the on-disk unsigned count is 32768 or more the decoded
count is negative, zero tags are decoded, and `DecodeDir` proceeds
directly to the next-directory offset without error. -/
theorem claim10_negative_count :
    ∀ (data : List Nat) (q : Nat) (order : ByteOrder) (base : Nat),
      q + 6 ≤ data.length →
      32768 ≤ u16 order ((data.drop q).take 2) →
      u16 order ((data.drop q).take 2) < 65536 →
      i16 order ((data.drop q).take 2) < 0 ∧
      DecodeDir ⟨data, q⟩ order base =
        .ok (⟨[]⟩, u32 order ((data.drop (q + 2)).take 4), ⟨data, q + 6⟩) := by
  intro data q order base hq hlo hhi
  have hneg : i16 order ((data.drop q).take 2) < 0 := by
    unfold i16
    rw [if_neg (by omega)]
    omega
  refine ⟨hneg, ?_⟩
  have hrf1 : (⟨data, q⟩ : BReader).readFull 2 =
      some ((data.drop q).take 2, ⟨data, q + 2⟩) :=
    readFull_mk_some.mpr ⟨by omega, rfl, rfl⟩
  have hz : (i16 order ((data.drop q).take 2)).toNat = 0 :=
    Int.toNat_of_nonpos (by omega)
  have hrf2 : (⟨data, q + 2⟩ : BReader).readFull 4 =
      some ((data.drop (q + 2)).take 4, ⟨data, q + 2 + 4⟩) :=
    readFull_mk_some.mpr ⟨by omega, rfl, rfl⟩
  simp only [DecodeDir, hrf1, hz, decodeTags, hrf2]

theorem claim10_witness :
    i16 .le ((exDirNeg.drop 0).take 2) < 0 ∧
    DecodeDir ⟨exDirNeg, 0⟩ .le 0 = .ok (⟨[]⟩, 5, ⟨exDirNeg, 6⟩) := by
  have h := claim10_negative_count exDirNeg 0 .le 0
    (by decide) (by decide) (by decide)
  exact ⟨h.1, by rw [h.2]; decide⟩

/-- Claim C1: for every well-formed single-directory stream — one on which
the canonical `Decode` succeeds with exactly one directory — satisfying
the fast-mode locality precondition that every out-of-line tag value lies
at or after the first-IFD offset, `DecodeFile` returns exactly the
canonical result: the same byte order and the same ordered directory with
the same ordered tag list (id, type, count, offset, value bytes). -/
theorem claim1_fast_decode_equiv :
    ∀ (data : List Nat) (t : Tiff) (d : Dir) (order : ByteOrder)
      (off0 : Nat) (r : BReader),
      Decode data = some (some t, none) →
      t.Dirs = [d] →
      parseHeader ⟨data, 0⟩ = .ok (order, off0, r) →
      (∀ tg ∈ d.Tags, 4 < typeSize tg.typ * tg.count → off0 ≤ tg.valOffset) →
      DecodeFile data = some (some t, none) := by
  intro data t d order off0 r hdec hdirs hph hloc
  obtain ⟨h8, hr, -, -, -⟩ := parseHeader_ok_elim hph
  subst hr
  unfold Decode at hdec
  split at hdec
  · rename_i heq
    rw [hph] at heq
    exact absurd heq (by simp)
  · rename_i heq
    rw [hph] at heq
    exact absurd heq (by simp)
  · rename_i heq
    rw [hph] at heq
    exact absurd heq (by simp)
  · rename_i heq
    rw [hph] at heq
    exact absurd heq (by simp)
  rename_i order1 off1 r1 heq
  rw [hph] at heq
  injection heq with heq
  injection heq with ho heq
  injection heq with hoff hrr
  subst ho
  subst hoff
  subst hrr
  obtain ⟨m, hm⟩ : ∃ m, data.length + 1 = m + 1 := ⟨data.length, rfl⟩
  rw [hm, decodeLoop_succ] at hdec
  dsimp only at hdec
  by_cases h0 : off0 = 0
  · rw [if_pos h0] at hdec
    injection hdec with hdec
    injection hdec with h1 h2
    injection h1 with h1
    rw [← h1] at hdirs
    exact absurd hdirs (by simp)
  rw [if_neg h0] at hdec
  by_cases hre : data.length ≤ off0
  · rw [if_pos hre] at hdec
    exact absurd hdec (by simp)
  rw [if_neg hre] at hdec
  split at hdec
  · exact absurd hdec (by simp)
  rename_i d0 next buf1 hdd
  split at hdec
  · exact absurd hdec (by simp)
  rename_i hne
  obtain ⟨hord, rest, hdirs2, hiff⟩ := decodeLoop_ok_elim _ _ _ _ _ _ hdec
  rw [hdirs] at hdirs2
  simp only [List.nil_append] at hdirs2
  have hd0rest : d0 = d ∧ rest = [] := by
    cases rest with
    | nil =>
      simp at hdirs2
      exact ⟨hdirs2.symm, rfl⟩
    | cons x xs =>
      simp at hdirs2
  obtain ⟨hd0, hrest⟩ := hd0rest
  subst hd0
  have hnext : next = 0 := hiff.mp hrest
  subst hnext
  have hshift := DecodeDir_shift (k := off0) (p := 0)
    (show DecodeDir ⟨data, off0 + 0⟩ order 0 = .ok (d0, 0, buf1) from hdd) hloc
  have ht : t = ⟨[d0], order⟩ := by
    obtain ⟨tds, tord⟩ := t
    dsimp only at hord hdirs
    rw [hord, hdirs]
  simp only [DecodeFile, hph]
  rw [hm, fileLoop_succ, if_neg h0]
  simp only [hshift]
  rw [if_neg (Ne.symm h0)]
  obtain ⟨m2, hm2⟩ : ∃ m2, m = m2 + 1 := ⟨m - 1, by omega⟩
  rw [hm2, fileLoop_succ, if_pos rfl]
  rw [ht]
  simp

theorem claim1_witness :
    Decode exStream1 = some (some exTiff1, none) ∧
    exTiff1.Dirs = [⟨[⟨2, 5, 1, 26, [1, 0, 0, 0, 2, 0, 0, 0]⟩]⟩] ∧
    DecodeFile exStream1 = some (some exTiff1, none) := by
  refine ⟨by decide, by decide, ?_⟩
  exact claim1_fast_decode_equiv exStream1 exTiff1
    ⟨[⟨2, 5, 1, 26, [1, 0, 0, 0, 2, 0, 0, 0]⟩]⟩ .le 8 ⟨exStream1, 8⟩
    (by decide) (by decide) (by decide) (by decide)

/-- Claim C2 (counterexample to the claim as stated): the stream
`exStreamEarlyBad` stores its single tag's out-of-line value at offset 8,
strictly before the first-IFD offset 16 — the bytes are present and the
canonical tag resolution even succeeds — yet canonical `Decode` does not
succeed on it (its next-offset field trips the cycle guard), refuting the
claim's assertion that `Decode` succeeds on every such stream. -/
theorem claim2_counterexample :
    earlyRefB exStreamEarlyBad = true ∧
    Decode exStreamEarlyBad = some (none, some ("tiff: recursive IFD")) := by
  exact ⟨by decide, by decide⟩

/-- Claim C2 (amended): on every stream whose first fast-mode directory
structurally declares a tag with an out-of-line value at an absolute
offset strictly before the first directory's offset (the fast-mode window
base), `DecodeFile` returns an error; the canonical `Decode` may succeed
on such a stream, but the early reference alone does not force it to. -/
theorem claim2_early_ref_fast_fails :
    ∀ data : List Nat, earlyRefB data = true →
      ∃ e, DecodeFile data = some (none, some e) := by
  intro data h
  exact earlyRef_DecodeFile_err h

theorem claim2_witness :
    earlyRefB exStreamEarly = true ∧
    Decode exStreamEarly =
      some (some ⟨[⟨[⟨1, 5, 1, 8, [0, 0, 0, 0, 0, 0, 0, 0]⟩]⟩], .le⟩, none) ∧
    (∃ e, DecodeFile exStreamEarly = some (none, some e)) := by
  refine ⟨by decide, by decide, ?_⟩
  exact claim2_early_ref_fast_fails exStreamEarly (by decide)

/-- Claim C5 (refuted by the code): on the two-cycle stream
`exStreamCycle`, whose directory at offset 8 names 14 as next and whose
directory at offset 14 names 8 as next, the canonical chain walk exhausts
every fuel bound — the cycle guard compares the new next-offset only with
the immediately preceding one, so the A→B→A alternation passes it forever
and the Go loop never terminates; `Decode` accordingly returns the
divergence marker `none` rather than running to completion. -/
theorem claim5_two_cycle_diverges :
    (∀ (fuel : Nat) (acc : List Dir) (q : Nat),
      decodeLoop fuel ⟨exStreamCycle, q⟩ .le 8 8 acc = none ∧
      decodeLoop fuel ⟨exStreamCycle, q⟩ .le 14 14 acc = none) ∧
    Decode exStreamCycle = none := by
  have hdA : DecodeDir ⟨exStreamCycle, 8⟩ .le 0 =
      .ok (⟨[]⟩, 14, ⟨exStreamCycle, 14⟩) := by decide
  have hdB : DecodeDir ⟨exStreamCycle, 14⟩ .le 0 =
      .ok (⟨[]⟩, 8, ⟨exStreamCycle, 20⟩) := by decide
  have main : ∀ (fuel : Nat) (acc : List Dir) (q : Nat),
      decodeLoop fuel ⟨exStreamCycle, q⟩ .le 8 8 acc = none ∧
      decodeLoop fuel ⟨exStreamCycle, q⟩ .le 14 14 acc = none := by
    intro fuel
    induction fuel with
    | zero =>
      intro acc q
      exact ⟨rfl, rfl⟩
    | succ f ih =>
      intro acc q
      constructor
      · rw [decodeLoop_succ]
        dsimp only
        rw [if_neg (by decide), if_neg (by decide)]
        simp only [hdA]
        rw [if_neg (by decide)]
        exact (ih (acc ++ [⟨[]⟩]) 14).2
      · rw [decodeLoop_succ]
        dsimp only
        rw [if_neg (by decide), if_neg (by decide)]
        simp only [hdB]
        rw [if_neg (by decide)]
        exact (ih (acc ++ [⟨[]⟩]) 20).1
  refine ⟨main, ?_⟩
  have hph : parseHeader ⟨exStreamCycle, 0⟩ =
      .ok (.le, 8, ⟨exStreamCycle, 8⟩) := by decide
  simp only [Decode, hph]
  exact (main (exStreamCycle.length + 1) [] 8).1

end GoexifTiff
